import Mathlib

/-!
# Traffic-light simulation: message queue and phase controller

A shallow embedding of `src/src/TrafficLight.cpp`:

* `MessageQueue<T>::send` / `MessageQueue<T>::receive` become pure functions on
  the guarded sequence; a `receive` that would block on the empty queue is
  `none`.
* `TrafficLight::waitForGreen` becomes a fuel-indexed loop around `receive`.
* `TrafficLight::cycleThroughPhases` becomes an iteration function on an
  explicit loop state; the wall clock and `rand()` are oracles that are read
  in program order. Each `send` is launched with `std::async` and never
  waited for, so a launched send stays pending until a scheduling oracle
  lets it run.
-/

namespace TrafficSim

/-! ## Data model -/

/-- Modelled from the spec: the enumeration `TrafficLightPhase` is declared in
`TrafficLight.h`, which is not part of the sources; the spec gives it exactly
the two members `Red` and `Green`, the code names them `red` and `green`. -/
inductive TrafficLightPhase where
  | red
  | green
  deriving DecidableEq, Repr

/-- Modelled from the spec: the class `MessageQueue<T>` is declared in
`TrafficLight.h`, which is not part of the sources; the member `q_queue` is
used through `empty`, `front`, `pop_front` and `push_back`, an ordered
sequence with insertion order preserved. The mutex `q_mutex` and the
condition variable `q_cond` make each member function one atomic step and
carry no data. -/
structure MessageQueue (T : Type) where
  q_queue : List T
  deriving DecidableEq, Repr

namespace MessageQueue

variable {T : Type}

/-- The queue built by the default constructor. -/
def empty : MessageQueue T := ⟨[]⟩

/-- `MessageQueue<T>::send`: under the lock, `q_queue.push_back(msg)`. -/
def send (q : MessageQueue T) (msg : T) : MessageQueue T :=
  ⟨q.q_queue ++ [msg]⟩

/-- `MessageQueue<T>::receive`: under the lock, wait until `!q_queue.empty()`,
then take `q_queue.front()` and `q_queue.pop_front()`. The result `none` is
the caller suspended in `q_cond.wait` on the empty queue. -/
def receive (q : MessageQueue T) : Option (T × MessageQueue T) :=
  match q.q_queue with
  | [] => none
  | msg :: rest => some (msg, ⟨rest⟩)

end MessageQueue

/-! ## Atomic-step executions of the queue -/

/-- One atomic operation on the queue, issued by the thread with the given
number. -/
inductive QueueAction (T : Type) where
  | send (sender : Nat) (msg : T)
  | receive (receiver : Nat)

/-- The queue together with two history logs: what was sent, by whom, in send
order, and what was received, by whom, in reception order. -/
structure QueueSystem (T : Type) where
  queue : MessageQueue T
  sent : List (Nat × T)
  received : List (Nat × T)

namespace QueueSystem

variable {T : Type}

/-- An empty queue on which nothing has happened yet. -/
def init : QueueSystem T := ⟨MessageQueue.empty, [], []⟩

/-- One atomic step. A `receive` is enabled only on a non-empty queue. -/
def step (s : QueueSystem T) : QueueAction T → Option (QueueSystem T)
  | .send i msg =>
      some ⟨s.queue.send msg, s.sent ++ [(i, msg)], s.received⟩
  | .receive j =>
      match s.queue.receive with
      | none => none
      | some (msg, q) => some ⟨q, s.sent, s.received ++ [(j, msg)]⟩

/-- A finite sequence of atomic steps; `none` when some step is not enabled. -/
def exec (s : QueueSystem T) : List (QueueAction T) → Option (QueueSystem T)
  | [] => some s
  | a :: as =>
      match s.step a with
      | none => none
      | some s1 => exec s1 as

/-- The items received so far followed by the items still queued are the items
sent so far. -/
def Conserved (s : QueueSystem T) : Prop :=
  s.received.map Prod.snd ++ s.queue.q_queue = s.sent.map Prod.snd

end QueueSystem

/-! ## The traffic light -/

/-- Modelled from the spec: the class `TrafficLight` is declared in
`TrafficLight.h`, which is not part of the sources; the code uses its members
`_currentPhase` and `_queue` (a shared handle to one
`MessageQueue<TrafficLightPhase>`). -/
structure TrafficLight where
  _currentPhase : TrafficLightPhase
  _queue : MessageQueue TrafficLightPhase
  deriving DecidableEq, Repr

namespace TrafficLight

/-- `TrafficLight::TrafficLight()`: the phase is set to red and a fresh queue is
allocated. -/
def new : TrafficLight :=
  { _currentPhase := TrafficLightPhase.red, _queue := MessageQueue.empty }

/-- `TrafficLight::getCurrentPhase`. -/
def getCurrentPhase (tl : TrafficLight) : TrafficLightPhase :=
  tl._currentPhase

end TrafficLight

/-- How a call of `waitForGreen` stands after some iterations of its loop:
the number of completed `receive` calls, the items received and thrown away,
and the queue as the call leaves it. -/
inductive WaitOutcome where
  /-- The call has returned: the last `receive` delivered green. -/
  | returned (receives : Nat) (discarded : List TrafficLightPhase)
      (queue : MessageQueue TrafficLightPhase)
  /-- The call is suspended inside `receive` on the empty queue. -/
  | blocked (receives : Nat) (discarded : List TrafficLightPhase)
      (queue : MessageQueue TrafficLightPhase)
  /-- The iteration budget is used up; the loop would go on. -/
  | running (receives : Nat) (discarded : List TrafficLightPhase)
      (queue : MessageQueue TrafficLightPhase)
  deriving DecidableEq, Repr

/-- The loop `while (true) { if (_queue->receive() == green) return; }` run for
at most `fuel` iterations on a queue to which nobody sends meanwhile;
`receives` and `discarded` accumulate what happened so far. -/
def waitForGreenLoop :
    Nat → MessageQueue TrafficLightPhase → Nat → List TrafficLightPhase → WaitOutcome
  | 0, q, receives, discarded => .running receives discarded q
  | fuel + 1, q, receives, discarded =>
      match q.receive with
      | none => .blocked receives discarded q
      | some (msg, q1) =>
          if msg = TrafficLightPhase.green then
            .returned (receives + 1) discarded q1
          else
            waitForGreenLoop fuel q1 (receives + 1) (discarded ++ [msg])

/-- `TrafficLight::waitForGreen`, with an iteration budget. -/
def TrafficLight.waitForGreen (tl : TrafficLight) (fuel : Nat) : WaitOutcome :=
  waitForGreenLoop fuel tl._queue 0 []

/-! ## The background cycle -/

/-- The sources the background cycle depends on. `now i` is the value, in
milliseconds, of the `i`-th call of `std::chrono::system_clock::now()`;
`rand i` is the value of the `i`-th call of `rand()` (a non-negative `int`);
`runs i` says which of the sends launched with `std::async` and not yet run
execute after loop iteration number `i`: positions in the list of pending
sends, taken one after the other. -/
structure Oracles where
  now : Nat → Int
  rand : Nat → Nat
  runs : Nat → List Nat

/-- Conversion of a 64-bit millisecond count to `int` (32 bits, two's
complement), as in `int lastUpdatedTime = ...count();`. -/
def toInt32 (x : Int) : Int :=
  (x + 2147483648) % 4294967296 - 2147483648

/-- The expression `(rand() % 2001) + 4000` for the value `r` of `rand()`. -/
def cycleLength (r : Nat) : Int :=
  ((r % 2001 : Nat) : Int) + 4000

/-- The toggle of `cycleThroughPhases`: green becomes red, anything else
becomes green. -/
def togglePhase (p : TrafficLightPhase) : TrafficLightPhase :=
  if p = TrafficLightPhase.green then TrafficLightPhase.red else TrafficLightPhase.green

/-- The variables of `cycleThroughPhases` between two loop iterations.
`clockReads` and `randDraws` count the oracle calls made so far. `futures` is
the vector of the same name, each entry written as the message its `send`
carries, in launch order; `pending` holds the launched sends that have not run
yet. The last three fields are history only: the clock value of each check
that toggled, the cycle length that check compared against, and, for each
completed iteration, the milliseconds it spent in `sleep_for`. -/
structure CycleState where
  light : TrafficLight
  lastUpdate : Int
  cycleDuration : Int
  clockReads : Nat
  randDraws : Nat
  futures : List TrafficLightPhase
  pending : List TrafficLightPhase
  toggleTimes : List Int
  cycleLog : List Int
  sleepLog : List Nat
  deriving DecidableEq, Repr

/-- The statements of `cycleThroughPhases` before its loop: `lastUpdate` is the
first clock value and `cycleDuration` comes from the first `rand()`. -/
def cycleStart (env : Oracles) (tl : TrafficLight) : CycleState :=
  { light := tl
    lastUpdate := env.now 0
    cycleDuration := cycleLength (env.rand 0)
    clockReads := 1
    randDraws := 1
    futures := []
    pending := []
    toggleTimes := []
    cycleLog := []
    sleepLog := [] }

/-- The elapsed time the next iteration will measure, as the `int`
`lastUpdatedTime`. -/
def CycleState.elapsed (env : Oracles) (s : CycleState) : Int :=
  toInt32 (env.now s.clockReads - s.lastUpdate)

/-- One iteration of the `while (true)` loop of `cycleThroughPhases`. When the
measured time has reached `cycleDuration`: toggle, launch the `send` of the
new phase with `std::async` (it is stored in `futures` and becomes pending;
the queue is not touched here), draw the next cycle length, sleep 1 ms, read
the clock into `lastUpdate`. Otherwise nothing but the clock read happens. -/
def cycleIteration (env : Oracles) (s : CycleState) : CycleState :=
  let now := env.now s.clockReads
  let lastUpdatedTime := toInt32 (now - s.lastUpdate)
  if lastUpdatedTime ≥ s.cycleDuration then
    let phase := togglePhase s.light._currentPhase
    { light := { _currentPhase := phase, _queue := s.light._queue }
      lastUpdate := env.now (s.clockReads + 1)
      cycleDuration := cycleLength (env.rand s.randDraws)
      clockReads := s.clockReads + 2
      randDraws := s.randDraws + 1
      futures := s.futures ++ [phase]
      pending := s.pending ++ [phase]
      toggleTimes := s.toggleTimes ++ [now]
      cycleLog := s.cycleLog ++ [s.cycleDuration]
      sleepLog := s.sleepLog ++ [1] }
  else
    { s with clockReads := s.clockReads + 1, sleepLog := s.sleepLog ++ [0] }

/-- The pending send at position `i` runs: `MessageQueue::send` pushes its
message, and the send is pending no longer. Nothing happens when there is no
such pending send. -/
def runSend (i : Nat) (s : CycleState) : CycleState :=
  match s.pending[i]? with
  | none => s
  | some msg =>
      { s with
        light := { _currentPhase := s.light._currentPhase, _queue := s.light._queue.send msg }
        pending := s.pending.eraseIdx i }

/-- Several pending sends run, one after the other. -/
def runSends (positions : List Nat) (s : CycleState) : CycleState :=
  positions.foldl (fun st i => runSend i st) s

/-- The state of `cycleThroughPhases` after `n` loop iterations, the launched
sends running when the scheduling oracle says so. -/
def cycleThroughPhases (env : Oracles) (tl : TrafficLight) : Nat → CycleState
  | 0 => cycleStart env tl
  | n + 1 => runSends (env.runs n) (cycleIteration env (cycleThroughPhases env tl n))

/-- Two states agree on everything the loop itself reads or writes; they may
differ in the queue and in which sends are pending. -/
def CycleState.SameLoop (a b : CycleState) : Prop :=
  a.light._currentPhase = b.light._currentPhase
    ∧ a.lastUpdate = b.lastUpdate
    ∧ a.cycleDuration = b.cycleDuration
    ∧ a.clockReads = b.clockReads
    ∧ a.randDraws = b.randDraws
    ∧ a.futures = b.futures
    ∧ a.toggleTimes = b.toggleTimes
    ∧ a.cycleLog = b.cycleLog
    ∧ a.sleepLog = b.sleepLog

/-- The differences between neighbouring entries of a list of time stamps. -/
def intervals : List Int → List Int
  | a :: b :: rest => (b - a) :: intervals (b :: rest)
  | _ => []

/-- The list green, red, green, ... of length `n`. -/
def alternating (n : Nat) : List TrafficLightPhase :=
  (List.range n).map fun i =>
    if i % 2 = 0 then TrafficLightPhase.green else TrafficLightPhase.red

/-- The scheduling in which every send runs right after the iteration that
launched it: each send is taken to complete at the toggle that issues it. -/
def Oracles.sendsCompleteAtToggle (env : Oracles) : Oracles :=
  { now := env.now, rand := env.rand, runs := fun _ => [0] }

/-- A sample run: `rand()` gives 0 and then 2000, so the cycle lengths are 4000
and then 6000; the clock is read at 0 ms (start), 4000 ms (first toggle),
4001 ms (after the 1 ms sleep), 10000 ms, 10001 ms, and 1 ms later each time
from then on; every send runs right after its launch. -/
def sampleRun : Oracles :=
  { now := fun i =>
      match i with
      | 0 => 0
      | 1 => 4000
      | 2 => 4001
      | 3 => 10000
      | n + 4 => 10001 + (n : Int)
    rand := fun i =>
      match i with
      | 1 => 2000
      | _ => 0
    runs := fun _ => [0] }

/-- The sample run with another scheduling of the sends: the first send
(green) is still pending when the second one (red) is launched in iteration
number 2; then the second runs before the first. -/
def delayedRun : Oracles :=
  { now := sampleRun.now
    rand := sampleRun.rand
    runs := fun i =>
      match i with
      | 2 => [1, 0]
      | _ => [] }

/-- The state after `k` iterations of the background cycle of a freshly
constructed traffic light, each send completing at the toggle that issues
it. -/
def freshRun (env : Oracles) (k : Nat) : CycleState :=
  cycleThroughPhases env.sendsCompleteAtToggle TrafficLight.new k

/-- A run whose clock is set back by 4 s between the first toggle and the
reading of the new reference point: the readings are 0, 4000, 0, 4000 ms and
stay there; `rand()` gives 0, so the cycle length is 4000 ms throughout. -/
def backwardsRun : Oracles :=
  { now := fun i =>
      match i with
      | 0 => 0
      | 1 => 4000
      | 2 => 0
      | _ => 4000
    rand := fun _ => 0
    runs := fun _ => [0] }

/-- A run in which the clock advances by 1 ms from one reading to the next and
`rand()` gives 0. -/
def tickingRun : Oracles :=
  { now := fun i => (i : Int)
    rand := fun _ => 0
    runs := fun _ => [0] }

/-! ## Lemmas on the queue -/

theorem conserved_step {T : Type} (s s1 : QueueSystem T) (a : QueueAction T)
    (hs : s.Conserved) (h : s.step a = some s1) : s1.Conserved := by
  unfold QueueSystem.Conserved at hs ⊢
  cases a with
  | send i msg =>
    simp only [QueueSystem.step, Option.some.injEq] at h
    subst h
    simp [MessageQueue.send, ← hs]
  | receive j =>
    simp only [QueueSystem.step, MessageQueue.receive] at h
    cases hq : s.queue.q_queue with
    | nil => simp [hq] at h
    | cons m rest =>
      simp only [hq, Option.some.injEq] at h
      subst h
      simp [← hs, hq]

theorem conserved_exec {T : Type} (as : List (QueueAction T)) :
    ∀ s s1 : QueueSystem T, s.Conserved → s.exec as = some s1 → s1.Conserved := by
  induction as with
  | nil =>
    intro s s1 hs h
    simp only [QueueSystem.exec, Option.some.injEq] at h
    exact h ▸ hs
  | cons a as ih =>
    intro s s1 hs h
    simp only [QueueSystem.exec] at h
    cases hstep : s.step a with
    | none => simp [hstep] at h
    | some s2 =>
      simp only [hstep] at h
      exact ih s2 s1 (conserved_step s s2 a hs hstep) h

/-! ## Lemmas on the draining wait -/

theorem waitForGreenLoop_skip (pre : List TrafficLightPhase)
    (hpre : ∀ x ∈ pre, x ≠ TrafficLightPhase.green) :
    ∀ (fuel : Nat) (rest : List TrafficLightPhase) (n : Nat) (d : List TrafficLightPhase),
      pre.length ≤ fuel →
      waitForGreenLoop fuel ⟨pre ++ rest⟩ n d
        = waitForGreenLoop (fuel - pre.length) ⟨rest⟩ (n + pre.length) (d ++ pre) := by
  induction pre with
  | nil => intro fuel rest n d _; simp
  | cons x xs ih =>
    intro fuel rest n d hf
    have hx : x ≠ TrafficLightPhase.green := hpre x (List.mem_cons_self _ _)
    have hxs : ∀ y ∈ xs, y ≠ TrafficLightPhase.green :=
      fun y hy => hpre y (List.mem_cons_of_mem _ hy)
    obtain ⟨f, rfl⟩ : ∃ f, fuel = f + 1 := ⟨fuel - 1, by simp at hf; omega⟩
    have hf1 : xs.length ≤ f := by simpa using hf
    simp only [List.cons_append, waitForGreenLoop, MessageQueue.receive, if_neg hx]
    rw [ih hxs f rest (n + 1) (d ++ [x]) hf1]
    have e1 : f + 1 - (x :: xs).length = f - xs.length := by simp
    have e2 : n + 1 + xs.length = n + (x :: xs).length := by simp; omega
    rw [e1, e2, List.append_assoc, List.singleton_append]

theorem take_no_green (l : List TrafficLightPhase) (i : Nat)
    (hfirst : ∀ j, j < i → l[j]? ≠ some TrafficLightPhase.green) :
    ∀ x ∈ l.take i, x ≠ TrafficLightPhase.green := by
  intro x hx hxg
  obtain ⟨j, hj, hjx⟩ := List.getElem_of_mem hx
  have hji : j < i := by
    have := hj
    simp at this
    omega
  have hjl : j < l.length := by
    have := hj
    simp at this
    omega
  apply hfirst j hji
  rw [List.getElem?_eq_getElem hjl]
  rw [List.getElem_take] at hjx
  rw [hjx, hxg]

theorem waitForGreenLoop_running (l : List TrafficLightPhase) (fuel : Nat)
    (hno : ∀ x ∈ l.take fuel, x ≠ TrafficLightPhase.green) (hf : fuel ≤ l.length) :
    waitForGreenLoop fuel ⟨l⟩ 0 []
      = .running fuel (l.take fuel) ⟨l.drop fuel⟩ := by
  have hlen : (l.take fuel).length = fuel := by simp [hf]
  have h := waitForGreenLoop_skip (l.take fuel) hno fuel (l.drop fuel) 0 [] (by omega)
  rw [List.take_append_drop, hlen, Nat.sub_self] at h
  rw [h]
  simp [waitForGreenLoop]

/-! ## Lemmas on the background cycle -/

theorem alternating_succ (n : Nat) :
    alternating (n + 1)
      = alternating n
          ++ [if n % 2 = 0 then TrafficLightPhase.green else TrafficLightPhase.red] := by
  simp [alternating, List.range_succ]

theorem alternating_chain (n : Nat) :
    List.Chain' (fun a b => a ≠ b) (alternating n)
      ∧ (alternating n).getLast?
          = if n = 0 then none
            else some (if n % 2 = 1 then TrafficLightPhase.green else TrafficLightPhase.red) := by
  induction n with
  | zero => simp [alternating]
  | succ n ih =>
    rw [alternating_succ]
    refine ⟨?_, ?_⟩
    · rw [List.chain'_append]
      refine ⟨ih.1, List.chain'_singleton _, ?_⟩
      intro a ha b hb
      rw [ih.2] at ha
      simp only [List.head?_cons, Option.mem_def, Option.some.injEq] at hb
      subst hb
      by_cases hn : n = 0
      · simp [hn] at ha
      · simp only [hn, if_false, Option.mem_def, Option.some.injEq] at ha
        subst ha
        rcases Nat.mod_two_eq_zero_or_one n with h | h <;> simp [h]
    · rw [List.getLast?_concat]
      rcases Nat.mod_two_eq_zero_or_one n with h | h <;>
        simp [h, show (n + 1) % 2 = (n % 2 + 1) % 2 by omega]

theorem sampleRun_clock_mono : ∀ i, sampleRun.now i ≤ sampleRun.now (i + 1) := by
  intro i
  rcases i with _ | _ | _ | _ | n <;> simp [sampleRun]

theorem cycleLength_bounds (r : Nat) : 4000 ≤ cycleLength r ∧ cycleLength r ≤ 6000 := by
  unfold cycleLength
  have := Nat.mod_lt r (show 0 < 2001 by decide)
  omega

theorem intervals_append (l : List Int) (x d : Int) (h : d ∈ intervals (l ++ [x])) :
    d ∈ intervals l ∨ ∃ t, l.getLast? = some t ∧ d = x - t := by
  induction l with
  | nil => simp [intervals] at h
  | cons a l ih =>
    cases l with
    | nil =>
      simp only [List.cons_append, List.nil_append, intervals, List.mem_singleton] at h
      exact Or.inr ⟨a, by simp, h⟩
    | cons b rest =>
      simp only [List.cons_append, intervals, List.mem_cons] at h
      rcases h with h | h
      · exact Or.inl (by simp [intervals, h])
      · rcases ih (by simpa using h) with h1 | ⟨t, ht, hd⟩
        · exact Or.inl (by simp only [intervals, List.mem_cons]; exact Or.inr h1)
        · exact Or.inr ⟨t, by simpa using ht, hd⟩

theorem toInt32_reached (e c : Int) (he : 0 ≤ e) (hc : 0 ≤ c) (h : c ≤ toInt32 e) : c ≤ e := by
  unfold toInt32 at h
  omega

theorem clock_mono (env : Oracles) (hmono : ∀ i, env.now i ≤ env.now (i + 1)) :
    ∀ i j, i ≤ j → env.now i ≤ env.now j := by
  intro i j hij
  induction j with
  | zero =>
    have : i = 0 := by omega
    subst this; exact le_refl _
  | succ j ih =>
    rcases Nat.lt_or_ge i (j + 1) with h | h
    · exact le_trans (ih (by omega)) (hmono j)
    · have : i = j + 1 := by omega
      subst this; exact le_refl _

theorem toInt32_small (e : Int) (h0 : 0 ≤ e) (h1 : e < 2147483648) : toInt32 e = e := by
  unfold toInt32
  omega

theorem sampleRun_clock_step : ∀ i, sampleRun.now (i + 1) - sampleRun.now i ≤ 5999 := by
  intro i
  rcases i with _ | _ | _ | _ | n <;> simp [sampleRun]

theorem intervals_index (l : List Int) (d : Int) (h : d ∈ intervals l) :
    ∃ i t1 t2, l[i]? = some t1 ∧ l[i + 1]? = some t2 ∧ d = t2 - t1 := by
  induction l with
  | nil => simp [intervals] at h
  | cons a l ih =>
    cases l with
    | nil => simp [intervals] at h
    | cons b rest =>
      simp only [intervals, List.mem_cons] at h
      rcases h with h | h
      · exact ⟨0, a, b, by simp, by simp, h⟩
      · obtain ⟨i, t1, t2, h1, h2, hd⟩ := ih h
        exact ⟨i + 1, t1, t2, by simpa using h1, by simpa using h2, hd⟩

/-- A property of neighbouring toggles and the cycle length logged with the
later one carries over when one more toggle is logged. -/
theorem pairs_append (P : Int → Int → Int → Prop) (tt cl : List Int) (x y : Int)
    (hlen : cl.length = tt.length)
    (hold : ∀ i t1 t2 c, tt[i]? = some t1 → tt[i + 1]? = some t2 → cl[i + 1]? = some c →
      P t1 t2 c)
    (hnew : ∀ t1, tt.getLast? = some t1 → P t1 x y) :
    ∀ i t1 t2 c, (tt ++ [x])[i]? = some t1 → (tt ++ [x])[i + 1]? = some t2 →
      (cl ++ [y])[i + 1]? = some c → P t1 t2 c := by
  intro i t1 t2 c h1 h2 hc
  rw [List.getElem?_append] at h1 h2 hc
  by_cases hi : i + 1 < tt.length
  · rw [if_pos (by omega)] at h1
    rw [if_pos hi] at h2
    rw [if_pos (by omega)] at hc
    exact hold i t1 t2 c h1 h2 hc
  · rw [if_neg hi] at h2
    rw [if_neg (by omega)] at hc
    have hidx : i + 1 - tt.length = 0 := by
      by_contra hne
      rw [List.getElem?_eq_none (by simp; omega)] at h2
      exact absurd h2 (by simp)
    have hi1 : i + 1 = tt.length := by omega
    rw [hidx] at h2
    rw [hlen, hidx] at hc
    simp only [List.getElem?_cons_zero, Option.some.injEq] at h2 hc
    rw [if_pos (by omega)] at h1
    subst h2 hc
    apply hnew t1
    rw [List.getLast?_eq_getElem?, ← h1]
    congr 1
    omega

theorem runSend_sameLoop (i : Nat) (s : CycleState) : (runSend i s).SameLoop s := by
  unfold runSend CycleState.SameLoop
  split <;> simp

theorem runSends_sameLoop (positions : List Nat) :
    ∀ s : CycleState, (runSends positions s).SameLoop s := by
  induction positions with
  | nil => intro s; simp [runSends, CycleState.SameLoop]
  | cons i rest ih =>
    intro s
    have h1 := ih (runSend i s)
    have h2 := runSend_sameLoop i s
    unfold runSends at h1 ⊢
    unfold CycleState.SameLoop at h1 h2 ⊢
    simp only [List.foldl_cons]
    obtain ⟨a1, a2, a3, a4, a5, a6, a7, a8, a9⟩ := h1
    obtain ⟨b1, b2, b3, b4, b5, b6, b7, b8, b9⟩ := h2
    exact ⟨a1.trans b1, a2.trans b2, a3.trans b3, a4.trans b4, a5.trans b5, a6.trans b6,
      a7.trans b7, a8.trans b8, a9.trans b9⟩

/-- What the sends that run after an iteration leave alone. -/
theorem cycle_succ_sameLoop (env : Oracles) (tl : TrafficLight) (k : Nat) :
    (cycleThroughPhases env tl (k + 1)).SameLoop
      (cycleIteration env (cycleThroughPhases env tl k)) :=
  runSends_sameLoop _ _

theorem runSend_count (i : Nat) (s : CycleState) :
    (runSend i s).light._queue.q_queue.length + (runSend i s).pending.length
      = s.light._queue.q_queue.length + s.pending.length := by
  unfold runSend
  cases h : s.pending[i]? with
  | none => simp
  | some msg =>
    have hi : i < s.pending.length := by
      by_contra hc
      rw [List.getElem?_eq_none (by omega)] at h
      exact absurd h (by simp)
    simp only [MessageQueue.send, List.length_append, List.length_singleton,
      List.length_eraseIdx_of_lt hi]
    omega

theorem runSends_count (positions : List Nat) :
    ∀ s : CycleState,
      (runSends positions s).light._queue.q_queue.length + (runSends positions s).pending.length
        = s.light._queue.q_queue.length + s.pending.length := by
  induction positions with
  | nil => intro s; simp [runSends]
  | cons i rest ih =>
    intro s
    have h1 := ih (runSend i s)
    unfold runSends at h1 ⊢
    simp only [List.foldl_cons]
    rw [h1, runSend_count]

/-- An iteration that finds the cycle length reached. -/
theorem cycleIteration_toggles (env : Oracles) (s : CycleState)
    (h : s.cycleDuration ≤ s.elapsed env) :
    (cycleIteration env s).light._currentPhase = togglePhase s.light._currentPhase
      ∧ (cycleIteration env s).light._queue = s.light._queue
      ∧ (cycleIteration env s).futures = s.futures ++ [togglePhase s.light._currentPhase]
      ∧ (cycleIteration env s).pending = s.pending ++ [togglePhase s.light._currentPhase]
      ∧ (cycleIteration env s).toggleTimes = s.toggleTimes ++ [env.now s.clockReads]
      ∧ (cycleIteration env s).cycleLog = s.cycleLog ++ [s.cycleDuration]
      ∧ (cycleIteration env s).lastUpdate = env.now (s.clockReads + 1)
      ∧ (cycleIteration env s).clockReads = s.clockReads + 2
      ∧ (cycleIteration env s).cycleDuration = cycleLength (env.rand s.randDraws)
      ∧ (cycleIteration env s).randDraws = s.randDraws + 1
      ∧ (cycleIteration env s).sleepLog = s.sleepLog ++ [1] := by
  unfold CycleState.elapsed at h
  simp [cycleIteration, h]

/-- An iteration that finds the elapsed time below the cycle length. -/
theorem cycleIteration_idles (env : Oracles) (s : CycleState)
    (h : s.elapsed env < s.cycleDuration) :
    (cycleIteration env s).light = s.light
      ∧ (cycleIteration env s).futures = s.futures
      ∧ (cycleIteration env s).pending = s.pending
      ∧ (cycleIteration env s).toggleTimes = s.toggleTimes
      ∧ (cycleIteration env s).cycleLog = s.cycleLog
      ∧ (cycleIteration env s).lastUpdate = s.lastUpdate
      ∧ (cycleIteration env s).clockReads = s.clockReads + 1
      ∧ (cycleIteration env s).cycleDuration = s.cycleDuration
      ∧ (cycleIteration env s).randDraws = s.randDraws
      ∧ (cycleIteration env s).sleepLog = s.sleepLog ++ [0] := by
  unfold CycleState.elapsed at h
  simp [cycleIteration, not_le.mpr h]

/-- The phases handed to `send` and the current phase of a run from a fresh
light, as functions of the number of toggles, whatever the scheduling. -/
theorem cycle_published (env : Oracles) (k : Nat) :
    (cycleThroughPhases env TrafficLight.new k).futures
        = alternating (cycleThroughPhases env TrafficLight.new k).toggleTimes.length
      ∧ (cycleThroughPhases env TrafficLight.new k).light._currentPhase
        = if (cycleThroughPhases env TrafficLight.new k).toggleTimes.length % 2 = 1
          then TrafficLightPhase.green else TrafficLightPhase.red := by
  induction k with
  | zero => simp [cycleThroughPhases, cycleStart, TrafficLight.new, alternating]
  | succ k ih =>
    obtain ⟨hq, hp⟩ := ih
    obtain ⟨e1, _, _, _, _, e6, e7, _, _⟩ := cycle_succ_sameLoop env TrafficLight.new k
    rw [e1, e6, e7]
    generalize cycleThroughPhases env TrafficLight.new k = s at *
    rcases lt_or_le (s.elapsed env) s.cycleDuration with h | h
    · obtain ⟨i1, i2, _, i4, _⟩ := cycleIteration_idles env s h
      rw [i1, i2, i4]
      exact ⟨hq, hp⟩
    · obtain ⟨t1, _, t3, _, t5, _⟩ := cycleIteration_toggles env s h
      rw [t1, t3, t5, hq, hp, List.length_append, List.length_singleton, alternating_succ]
      rcases Nat.mod_two_eq_zero_or_one s.toggleTimes.length with h2 | h2 <;>
        simp [h2, togglePhase,
          show (s.toggleTimes.length + 1) % 2 = (s.toggleTimes.length % 2 + 1) % 2 by omega]

/-- Every toggle logs one cycle length and launches one send, and a launched
send is either pending or has pushed its message. -/
theorem cycle_counts (env : Oracles) (tl : TrafficLight) (k : Nat) :
    (cycleThroughPhases env tl k).cycleLog.length
        = (cycleThroughPhases env tl k).toggleTimes.length
      ∧ (cycleThroughPhases env tl k).futures.length
        = (cycleThroughPhases env tl k).toggleTimes.length
      ∧ (cycleThroughPhases env tl k).light._queue.q_queue.length
          + (cycleThroughPhases env tl k).pending.length
        = tl._queue.q_queue.length + (cycleThroughPhases env tl k).futures.length := by
  induction k with
  | zero => simp [cycleThroughPhases, cycleStart]
  | succ k ih =>
    obtain ⟨h1, h2, h3⟩ := ih
    obtain ⟨_, _, _, _, _, e6, e7, e8, _⟩ := cycle_succ_sameLoop env tl k
    have hc : (cycleThroughPhases env tl (k + 1)).light._queue.q_queue.length
          + (cycleThroughPhases env tl (k + 1)).pending.length
        = (cycleIteration env (cycleThroughPhases env tl k)).light._queue.q_queue.length
          + (cycleIteration env (cycleThroughPhases env tl k)).pending.length :=
      runSends_count _ _
    rw [hc, e6, e7, e8]
    generalize cycleThroughPhases env tl k = s at *
    rcases lt_or_le (s.elapsed env) s.cycleDuration with h | h
    · obtain ⟨i1, i2, i3, i4, i5, _⟩ := cycleIteration_idles env s h
      rw [i1, i2, i3, i4, i5]
      exact ⟨h1, h2, h3⟩
    · obtain ⟨_, t2, t3, t4, t5, t6, _⟩ := cycleIteration_toggles env s h
      rw [t2, t3, t4, t5, t6]
      simp only [List.length_append, List.length_singleton]
      omega

theorem cycle_duration_drawn (env : Oracles) (tl : TrafficLight) (k : Nat) :
    1 ≤ (cycleThroughPhases env tl k).randDraws
      ∧ (cycleThroughPhases env tl k).cycleDuration
        = cycleLength (env.rand ((cycleThroughPhases env tl k).randDraws - 1)) := by
  induction k with
  | zero => simp [cycleThroughPhases, cycleStart]
  | succ k ih =>
    obtain ⟨_, _, e3, _, e5, _⟩ := cycle_succ_sameLoop env tl k
    rw [e3, e5]
    generalize cycleThroughPhases env tl k = s at *
    rcases lt_or_le (s.elapsed env) s.cycleDuration with h | h
    · obtain ⟨_, _, _, _, _, _, _, i8, i9, _⟩ := cycleIteration_idles env s h
      rw [i8, i9]
      exact ih
    · obtain ⟨_, _, _, _, _, _, _, _, t9, t10, _⟩ := cycleIteration_toggles env s h
      rw [t9, t10]
      simp

theorem cycle_duration_bounds (env : Oracles) (tl : TrafficLight) (k : Nat) :
    4000 ≤ (cycleThroughPhases env tl k).cycleDuration
      ∧ (cycleThroughPhases env tl k).cycleDuration ≤ 6000 := by
  rw [(cycle_duration_drawn env tl k).2]
  exact cycleLength_bounds _

/-- Under a clock that never runs backwards: the reference point is an earlier
clock value, the last toggle is not after it, and two neighbouring toggles are
at least the cycle length logged with the later one apart. -/
theorem cycle_interval_lower (env : Oracles) (hmono : ∀ i, env.now i ≤ env.now (i + 1))
    (tl : TrafficLight) (k : Nat) :
    (∃ j, j < (cycleThroughPhases env tl k).clockReads
        ∧ (cycleThroughPhases env tl k).lastUpdate = env.now j)
      ∧ (∀ t, (cycleThroughPhases env tl k).toggleTimes.getLast? = some t →
          t ≤ (cycleThroughPhases env tl k).lastUpdate)
      ∧ (∀ i t1 t2 c, (cycleThroughPhases env tl k).toggleTimes[i]? = some t1 →
          (cycleThroughPhases env tl k).toggleTimes[i + 1]? = some t2 →
          (cycleThroughPhases env tl k).cycleLog[i + 1]? = some c →
          (4000 ≤ c ∧ c ≤ 6000) ∧ c ≤ t2 - t1) := by
  induction k with
  | zero =>
    simp only [cycleThroughPhases, cycleStart]
    exact ⟨⟨0, by decide, rfl⟩, by simp, by simp⟩
  | succ k ih =>
    obtain ⟨⟨j, hj, hlu⟩, hlast, hpairs⟩ := ih
    have hb := cycle_duration_bounds env tl k
    have hlen := (cycle_counts env tl k).1
    obtain ⟨_, e2, _, e4, _, _, e7, e8, _⟩ := cycle_succ_sameLoop env tl k
    rw [e2, e4, e7, e8]
    generalize cycleThroughPhases env tl k = s at *
    rcases lt_or_le (s.elapsed env) s.cycleDuration with h | h
    · obtain ⟨_, _, _, i4, i5, i6, i7, _⟩ := cycleIteration_idles env s h
      rw [i4, i5, i6, i7]
      exact ⟨⟨j, by omega, hlu⟩, hlast, hpairs⟩
    · obtain ⟨_, _, _, _, t5, t6, t7, t8, _⟩ := cycleIteration_toggles env s h
      rw [t5, t6, t7, t8]
      have hnow : s.lastUpdate ≤ env.now s.clockReads := by
        rw [hlu]; exact clock_mono env hmono _ _ (by omega)
      have hreach : s.cycleDuration ≤ env.now s.clockReads - s.lastUpdate :=
        toInt32_reached _ _ (by omega) (by omega) h
      refine ⟨⟨s.clockReads + 1, by omega, rfl⟩, ?_, ?_⟩
      · intro t ht
        rw [List.getLast?_concat] at ht
        have ht1 := Option.some.inj ht
        subst ht1
        exact hmono _
      · apply pairs_append (fun t1 t2 c => (4000 ≤ c ∧ c ≤ 6000) ∧ c ≤ t2 - t1)
          s.toggleTimes s.cycleLog _ _ hlen hpairs
        intro t1 ht1
        have := hlast t1 ht1
        exact ⟨hb, by omega⟩

/-- Under a clock that never runs backwards and advances by at most `δ` from
one reading to the next: the last reading is less than a cycle length after
the reference point, the reference point is at most `δ` after the last toggle,
and two neighbouring toggles are less than the logged cycle length plus `2 δ`
apart. -/
theorem cycle_interval_upper (env : Oracles) (δ : Int)
    (hmono : ∀ i, env.now i ≤ env.now (i + 1))
    (hstep : ∀ i, env.now (i + 1) - env.now i ≤ δ) (hδ : δ ≤ 2147477648)
    (tl : TrafficLight) (k : Nat) :
    (1 ≤ (cycleThroughPhases env tl k).clockReads
        ∧ (cycleThroughPhases env tl k).lastUpdate
          ≤ env.now ((cycleThroughPhases env tl k).clockReads - 1)
        ∧ env.now ((cycleThroughPhases env tl k).clockReads - 1)
            - (cycleThroughPhases env tl k).lastUpdate
          < (cycleThroughPhases env tl k).cycleDuration)
      ∧ (∀ t, (cycleThroughPhases env tl k).toggleTimes.getLast? = some t →
          (cycleThroughPhases env tl k).lastUpdate - t ≤ δ)
      ∧ (∀ i t1 t2 c, (cycleThroughPhases env tl k).toggleTimes[i]? = some t1 →
          (cycleThroughPhases env tl k).toggleTimes[i + 1]? = some t2 →
          (cycleThroughPhases env tl k).cycleLog[i + 1]? = some c →
          t2 - t1 < c + 2 * δ) := by
  induction k with
  | zero =>
    have hb := cycle_duration_bounds env tl 0
    simp only [cycleThroughPhases, cycleStart] at hb ⊢
    refine ⟨⟨by decide, le_refl _, ?_⟩, by simp, by simp⟩
    simp only [Nat.sub_self, sub_self]
    omega
  | succ k ih =>
    obtain ⟨⟨hcr, hle, hlt⟩, hlast, hpairs⟩ := ih
    have hb := cycle_duration_bounds env tl k
    have hb1 := cycle_duration_bounds env tl (k + 1)
    have hlen := (cycle_counts env tl k).1
    obtain ⟨_, e2, e3, e4, _, _, e7, e8, _⟩ := cycle_succ_sameLoop env tl k
    rw [e3] at hb1
    rw [e2, e3, e4, e7, e8]
    generalize cycleThroughPhases env tl k = s at *
    have hs1 := hstep (s.clockReads - 1)
    have hm1 := hmono (s.clockReads - 1)
    rw [Nat.sub_add_cancel hcr] at hs1 hm1
    have he0 : 0 ≤ env.now s.clockReads - s.lastUpdate := by omega
    have he1 : env.now s.clockReads - s.lastUpdate < s.cycleDuration + δ := by omega
    have hel : s.elapsed env = env.now s.clockReads - s.lastUpdate := by
      unfold CycleState.elapsed
      exact toInt32_small _ he0 (by omega)
    rcases lt_or_le (s.elapsed env) s.cycleDuration with h | h
    · obtain ⟨_, _, _, i4, i5, i6, i7, i8, _⟩ := cycleIteration_idles env s h
      rw [i4, i5, i6, i7, i8]
      rw [hel] at h
      refine ⟨⟨by omega, ?_, ?_⟩, hlast, hpairs⟩
      · simp only [Nat.add_sub_cancel]; omega
      · simp only [Nat.add_sub_cancel]; exact h
    · obtain ⟨_, _, _, _, t5, t6, t7, t8, t9, _⟩ := cycleIteration_toggles env s h
      rw [t9] at hb1
      rw [t5, t6, t7, t8, t9]
      refine ⟨⟨by omega, ?_, ?_⟩, ?_, ?_⟩
      · exact le_of_eq (by congr 1)
      · have : s.clockReads + 2 - 1 = s.clockReads + 1 := by omega
        rw [this]
        omega
      · intro t ht
        rw [List.getLast?_concat] at ht
        have ht1 := Option.some.inj ht
        subst ht1
        exact hstep _
      · apply pairs_append (fun t1 t2 c => t2 - t1 < c + 2 * δ)
          s.toggleTimes s.cycleLog _ _ hlen hpairs
        intro t1 ht1
        have := hlast t1 ht1
        show env.now s.clockReads - t1 < s.cycleDuration + 2 * δ
        omega

/-- When each send runs right after the iteration that launched it, nothing is
pending between iterations and the queue holds the phases in launch order. -/
theorem freshRun_queue (env : Oracles) (k : Nat) :
    (freshRun env k).pending = []
      ∧ (freshRun env k).light._queue.q_queue = (freshRun env k).futures := by
  unfold freshRun
  induction k with
  | zero => simp [cycleThroughPhases, cycleStart, TrafficLight.new, MessageQueue.empty]
  | succ k ih =>
    obtain ⟨hp, hq⟩ := ih
    have hrun : cycleThroughPhases env.sendsCompleteAtToggle TrafficLight.new (k + 1)
        = runSend 0 (cycleIteration env.sendsCompleteAtToggle
            (cycleThroughPhases env.sendsCompleteAtToggle TrafficLight.new k)) := rfl
    rw [hrun]
    generalize cycleThroughPhases env.sendsCompleteAtToggle TrafficLight.new k = s at *
    rcases lt_or_le (s.elapsed env.sendsCompleteAtToggle) s.cycleDuration with h | h
    · obtain ⟨i1, i2, i3, _⟩ := cycleIteration_idles _ s h
      have : runSend 0 (cycleIteration env.sendsCompleteAtToggle s)
          = cycleIteration env.sendsCompleteAtToggle s := by
        unfold runSend
        rw [i3, hp]
        rfl
      rw [this, i1, i2, i3]
      exact ⟨hp, hq⟩
    · obtain ⟨_, t2, t3, t4, _⟩ := cycleIteration_toggles _ s h
      unfold runSend
      rw [t4, hp]
      simp only [List.nil_append, List.getElem?_cons_zero, List.eraseIdx_cons_zero,
        MessageQueue.send, t2, t3, hq, true_and]

theorem freshRun_succ_sameLoop (env : Oracles) (k : Nat) :
    (freshRun env (k + 1)).SameLoop
      (cycleIteration env.sendsCompleteAtToggle (freshRun env k)) :=
  cycle_succ_sameLoop _ _ _

/-- The queue need not hold the phases in launch order: in the delayed run
green is launched first and red second, and red is pushed first. -/
theorem sends_may_arrive_out_of_order :
    (cycleThroughPhases delayedRun TrafficLight.new 3).futures = [.green, .red]
      ∧ (cycleThroughPhases delayedRun TrafficLight.new 2).pending = [.green]
      ∧ (cycleThroughPhases delayedRun TrafficLight.new 3).light._queue.q_queue
        = [.red, .green] := by
  decide

/-! ## Claims on the queue -/

/-- C1: FIFO. Starting from an empty queue, after `send a` and then `send b`,
the first `receive` returns `a` (leaving only `b` queued), the second returns
`b`, and the queue is empty afterwards. -/
theorem fifo_two_sends {T : Type} (a b : T) :
    ((MessageQueue.empty.send a).send b).receive = some (a, ⟨[b]⟩)
      ∧ (MessageQueue.mk [b]).receive = some (b, ⟨[]⟩)
      ∧ (MessageQueue.mk ([] : List T)).receive = none := by
  refine ⟨rfl, rfl, rfl⟩

/-- C2: exactly-once delivery. After every finite sequence of enabled atomic
sends and receives from the empty queue, the received items (in reception
order) followed by the queued items are the sent items (in send order); the
received items are a prefix of the sent ones, nothing is dropped, a tagged
item is not delivered twice, and a receive removes exactly the head. -/
theorem exactly_once_delivery {T : Type} (as : List (QueueAction T))
    (s : QueueSystem T) (h : QueueSystem.init.exec as = some s) :
    s.received.map Prod.snd ++ s.queue.q_queue = s.sent.map Prod.snd
      ∧ s.received.length + s.queue.q_queue.length = s.sent.length
      ∧ ((s.sent.map Prod.snd).Nodup →
          (s.received.map Prod.snd).Nodup
            ∧ ∀ x ∈ s.received.map Prod.snd, x ∉ s.queue.q_queue)
      ∧ ∀ (x : T) (rest : List T),
          (MessageQueue.mk (x :: rest)).receive = some (x, ⟨rest⟩) := by
  have hc : s.Conserved :=
    conserved_exec as QueueSystem.init s (by simp [QueueSystem.Conserved, QueueSystem.init, MessageQueue.empty]) h
  unfold QueueSystem.Conserved at hc
  refine ⟨hc, ?_, ?_, fun _ _ => rfl⟩
  · have := congrArg List.length hc
    simpa using this
  · intro hnd
    rw [← hc] at hnd
    have := List.nodup_append.mp hnd
    refine ⟨this.1, fun x hx hq => ?_⟩
    exact this.2.2 hx hq

/-- Witness for C2: two senders and two receivers, interleaved. -/
theorem exactly_once_delivery_witness :
    QueueSystem.init.exec
        [.send 1 TrafficLightPhase.green, .send 2 .red, .receive 7, .send 1 .green,
          .receive 8]
        = some ⟨⟨[.green]⟩, [(1, .green), (2, .red), (1, .green)], [(7, .green), (8, .red)]⟩
      ∧ [TrafficLightPhase.green, .red] ++ [.green] = [.green, .red, .green] :=
  ⟨rfl,
    (exactly_once_delivery
      [.send 1 TrafficLightPhase.green, .send 2 .red, .receive 7, .send 1 .green, .receive 8]
      ⟨⟨[.green]⟩, [(1, .green), (2, .red), (1, .green)], [(7, .green), (8, .red)]⟩ rfl).1⟩

/-! ## Claims on the draining wait -/

/-- C3: draining wait. When the first green of the queue content is at index
`i`, `waitForGreen` (given at least `i + 1` loop iterations) returns after
exactly `i + 1` receives, having discarded the `i` non-green items before that
green, and leaves exactly the items after index `i`, in order; with fewer
iterations it has not returned yet. -/
theorem waitForGreen_drains_to_first_green (phase : TrafficLightPhase)
    (l : List TrafficLightPhase) (i : Nat)
    (hg : l[i]? = some TrafficLightPhase.green)
    (hfirst : ∀ j, j < i → l[j]? ≠ some TrafficLightPhase.green) :
    (∀ fuel, i + 1 ≤ fuel →
        (TrafficLight.mk phase ⟨l⟩).waitForGreen fuel
          = .returned (i + 1) (l.take i) ⟨l.drop (i + 1)⟩)
      ∧ (∀ fuel, fuel ≤ i →
        (TrafficLight.mk phase ⟨l⟩).waitForGreen fuel
          = .running fuel (l.take fuel) ⟨l.drop fuel⟩)
      ∧ (l.take i).length = i
      ∧ (∀ x ∈ l.take i, x ≠ TrafficLightPhase.green) := by
  have hil : i < l.length := by
    rcases Nat.lt_or_ge i l.length with h | h
    · exact h
    · rw [List.getElem?_eq_none h] at hg; exact absurd hg (by simp)
  have hgi : l[i] = TrafficLightPhase.green := by
    rw [List.getElem?_eq_getElem hil] at hg; exact Option.some.inj hg
  have hno := take_no_green l i hfirst
  have hlen : (l.take i).length = i := by simp; omega
  have hdrop : l.drop i = TrafficLightPhase.green :: l.drop (i + 1) := by
    rw [← hgi]; exact List.drop_eq_getElem_cons hil
  refine ⟨?_, ?_, hlen, hno⟩
  · intro fuel hf
    have h := waitForGreenLoop_skip (l.take i) hno fuel (l.drop i) 0 [] (by omega)
    rw [List.take_append_drop, hlen] at h
    unfold TrafficLight.waitForGreen
    simp only
    rw [h, hdrop]
    obtain ⟨f, hf1⟩ : ∃ f, fuel - i = f + 1 := ⟨fuel - i - 1, by omega⟩
    rw [hf1]
    simp [waitForGreenLoop, MessageQueue.receive]
  · intro fuel hf
    unfold TrafficLight.waitForGreen
    simp only
    apply waitForGreenLoop_running l fuel _ (by omega)
    intro x hx
    apply take_no_green l fuel (fun j hj => hfirst j (by omega)) x hx

/-- Witness for C3: reds at indices 0 and 1, the first green at index 2. -/
theorem waitForGreen_drains_to_first_green_witness :
    (TrafficLight.mk .red ⟨[.red, .red, .green, .red, .green]⟩).waitForGreen 3
      = .returned 3 [.red, .red] ⟨[.red, .green]⟩ :=
  (waitForGreen_drains_to_first_green .red [.red, .red, .green, .red, .green] 2
    (by decide) (by intro j hj; interval_cases j <;> decide)).1 3 (by decide)

/-- C4: no return before a green. On a queue content without green (the empty
one included), `waitForGreen` never returns, whatever the number of loop
iterations: it consumes every item present and is then suspended in `receive`
on the empty queue, which is not enabled until a further `send`. -/
theorem waitForGreen_blocks_without_green (phase : TrafficLightPhase)
    (l : List TrafficLightPhase) (hno : ∀ x ∈ l, x ≠ TrafficLightPhase.green) :
    (∀ fuel n d q, (TrafficLight.mk phase ⟨l⟩).waitForGreen fuel ≠ .returned n d q)
      ∧ (∀ fuel, l.length + 1 ≤ fuel →
          (TrafficLight.mk phase ⟨l⟩).waitForGreen fuel = .blocked l.length l ⟨[]⟩)
      ∧ (MessageQueue.mk ([] : List TrafficLightPhase)).receive = none
      ∧ (∀ x : TrafficLightPhase,
          ((MessageQueue.mk []).send x).receive = some (x, ⟨[]⟩)) := by
  have hblocked : ∀ fuel, l.length + 1 ≤ fuel →
      (TrafficLight.mk phase ⟨l⟩).waitForGreen fuel = .blocked l.length l ⟨[]⟩ := by
    intro fuel hf
    have h := waitForGreenLoop_skip l hno fuel [] 0 [] (by omega)
    rw [List.append_nil] at h
    unfold TrafficLight.waitForGreen
    simp only
    rw [h]
    obtain ⟨f, hf1⟩ : ∃ f, fuel - l.length = f + 1 := ⟨fuel - l.length - 1, by omega⟩
    rw [hf1]
    simp [waitForGreenLoop, MessageQueue.receive]
  refine ⟨?_, hblocked, rfl, fun _ => rfl⟩
  intro fuel n d q
  rcases Nat.lt_or_ge l.length fuel with h | h
  · rw [hblocked fuel h]; exact fun hc => WaitOutcome.noConfusion hc
  · have hr := waitForGreenLoop_running l fuel
      (fun x hx => hno x (List.mem_of_mem_take hx)) h
    unfold TrafficLight.waitForGreen
    simp only
    rw [hr]; exact fun hc => WaitOutcome.noConfusion hc

/-- Witness for C4: a pending red and nothing else. -/
theorem waitForGreen_blocks_without_green_witness :
    (TrafficLight.mk .red ⟨[.red]⟩).waitForGreen 5 = .blocked 1 [.red] ⟨[]⟩ :=
  (waitForGreen_blocks_without_green .red [.red] (by decide)).2.1 5 (by decide)

/-! ## Claims on the background cycle -/

/-- C6: cycle length range. For every value `r` of `rand()` the cycle length
`(r % 2001) + 4000` lies in [4000, 6000], `r = 0` gives 4000 and `r = 2000`
gives 6000; the initial cycle length and the one in force after any number of
iterations are such values. -/
theorem cycle_length_range (r : Nat) (env : Oracles) (tl : TrafficLight) (k : Nat) :
    (4000 ≤ cycleLength r ∧ cycleLength r ≤ 6000)
      ∧ cycleLength 0 = 4000
      ∧ cycleLength 2000 = 6000
      ∧ (cycleStart env tl).cycleDuration = cycleLength (env.rand 0)
      ∧ (cycleThroughPhases env tl k).cycleDuration
          = cycleLength (env.rand ((cycleThroughPhases env tl k).randDraws - 1))
      ∧ 4000 ≤ (cycleThroughPhases env tl k).cycleDuration
      ∧ (cycleThroughPhases env tl k).cycleDuration ≤ 6000 := by
  have hd := (cycle_duration_drawn env tl k).2
  have hb := cycle_duration_bounds env tl k
  exact ⟨cycleLength_bounds r, by decide, by decide, rfl, hd, hb.1, hb.2⟩

/-- C7, as stated, fails. Upper bound: on the sample run the cycle length is
6000 ms, the reference point is read 1 ms after the first toggle, and the
second toggle, taken at the first instant the elapsed time reaches 6000 ms,
follows the first by 6001 ms. Lower bound: when the clock is set back between
the toggle and the reading of the reference point, two toggles are 0 ms
apart. -/
theorem toggle_interval_outside_range :
    ((freshRun sampleRun 3).toggleTimes = [4000, 10001]
        ∧ intervals (freshRun sampleRun 3).toggleTimes = [6001]
        ∧ ¬ (∀ d ∈ intervals (freshRun sampleRun 3).toggleTimes, 4000 ≤ d ∧ d ≤ 6000))
      ∧ ((freshRun backwardsRun 2).toggleTimes = [4000, 4000]
        ∧ intervals (freshRun backwardsRun 2).toggleTimes = [0]
        ∧ ¬ (∀ d ∈ intervals (freshRun backwardsRun 2).toggleTimes, 4000 ≤ d ∧ d ≤ 6000)) := by
  refine ⟨⟨by decide, by decide, ?_⟩, ⟨by decide, by decide, ?_⟩⟩
  · intro h
    have := h 6001 (by decide)
    omega
  · intro h
    have := h 0 (by decide)
    omega

/-- C7, amended: under a clock that never runs backwards, in every run of the
background cycle a toggle happens only at a check whose measured elapsed time
has reached the cycle length in force, which lies in [4000, 6000] and is the
one logged with that toggle; each interval between two successive toggles is
at least that cycle length, hence at least 4000 ms; and when moreover the
clock advances by at most `δ` from one reading to the next (`δ` at most
2147477648 ms, so that the `int` holding the elapsed time cannot overflow),
the interval is less than that cycle length plus `2 δ`, hence less than
`6000 + 2 δ`. -/
theorem toggle_interval_bounds (env : Oracles)
    (hmono : ∀ i, env.now i ≤ env.now (i + 1)) (tl : TrafficLight) (k : Nat) :
    (∀ d ∈ intervals (cycleThroughPhases env tl k).toggleTimes,
        4000 ≤ d
          ∧ ∀ δ : Int, (∀ j, env.now (j + 1) - env.now j ≤ δ) → δ ≤ 2147477648 →
              d < 6000 + 2 * δ)
      ∧ (∀ i t1 t2 c, (cycleThroughPhases env tl k).toggleTimes[i]? = some t1 →
          (cycleThroughPhases env tl k).toggleTimes[i + 1]? = some t2 →
          (cycleThroughPhases env tl k).cycleLog[i + 1]? = some c →
          (4000 ≤ c ∧ c ≤ 6000)
            ∧ c ≤ t2 - t1
            ∧ ∀ δ : Int, (∀ j, env.now (j + 1) - env.now j ≤ δ) → δ ≤ 2147477648 →
                t2 - t1 < c + 2 * δ)
      ∧ (cycleThroughPhases env tl k).cycleLog.length
          = (cycleThroughPhases env tl k).toggleTimes.length
      ∧ ((cycleThroughPhases env tl (k + 1)).toggleTimes
            ≠ (cycleThroughPhases env tl k).toggleTimes →
          (cycleThroughPhases env tl k).cycleDuration
              ≤ (cycleThroughPhases env tl k).elapsed env
            ∧ (cycleThroughPhases env tl (k + 1)).toggleTimes
              = (cycleThroughPhases env tl k).toggleTimes
                ++ [env.now (cycleThroughPhases env tl k).clockReads]
            ∧ (cycleThroughPhases env tl (k + 1)).cycleLog
              = (cycleThroughPhases env tl k).cycleLog
                ++ [(cycleThroughPhases env tl k).cycleDuration])
      ∧ 4000 ≤ (cycleThroughPhases env tl k).cycleDuration
      ∧ (cycleThroughPhases env tl k).cycleDuration ≤ 6000 := by
  have hlen := (cycle_counts env tl k).1
  have hb := cycle_duration_bounds env tl k
  have hidx : ∀ i t1 t2 c, (cycleThroughPhases env tl k).toggleTimes[i]? = some t1 →
      (cycleThroughPhases env tl k).toggleTimes[i + 1]? = some t2 →
      (cycleThroughPhases env tl k).cycleLog[i + 1]? = some c →
      (4000 ≤ c ∧ c ≤ 6000)
        ∧ c ≤ t2 - t1
        ∧ ∀ δ : Int, (∀ j, env.now (j + 1) - env.now j ≤ δ) → δ ≤ 2147477648 →
            t2 - t1 < c + 2 * δ := by
    intro i t1 t2 c h1 h2 hc
    obtain ⟨hcb, hlow⟩ := (cycle_interval_lower env hmono tl k).2.2 i t1 t2 c h1 h2 hc
    exact ⟨hcb, hlow, fun δ hstep hδ =>
      (cycle_interval_upper env δ hmono hstep hδ tl k).2.2 i t1 t2 c h1 h2 hc⟩
  refine ⟨?_, hidx, hlen, ?_, hb.1, hb.2⟩
  · intro d hd
    obtain ⟨i, t1, t2, h1, h2, hdd⟩ := intervals_index _ d hd
    have hi : i + 1 < (cycleThroughPhases env tl k).cycleLog.length := by
      rw [hlen]
      by_contra hc
      rw [List.getElem?_eq_none (by omega)] at h2
      exact absurd h2 (by simp)
    obtain ⟨hcb, hlow, hup⟩ := hidx i t1 t2 _ h1 h2 (List.getElem?_eq_getElem hi)
    subst hdd
    refine ⟨by omega, fun δ hstep hδ => ?_⟩
    have := hup δ hstep hδ
    omega
  · intro hne
    obtain ⟨_, _, _, _, _, _, e7, e8, _⟩ := cycle_succ_sameLoop env tl k
    rw [e7] at hne
    rw [e7, e8]
    rcases lt_or_le ((cycleThroughPhases env tl k).elapsed env)
      (cycleThroughPhases env tl k).cycleDuration with h | h
    · exact absurd (cycleIteration_idles env _ h).2.2.2.1 hne
    · obtain ⟨_, _, _, _, t5, t6, _⟩ := cycleIteration_toggles env _ h
      exact ⟨h, t5, t6⟩

/-- Witness for amended C7: the sample run, whose clock never runs backwards
and advances by at most 5999 ms per reading, has two toggles; the second is
checked against the cycle length 6000 ms and follows the first by 6001 ms. -/
theorem toggle_interval_bounds_witness :
    (∀ i, sampleRun.now i ≤ sampleRun.now (i + 1))
      ∧ (cycleThroughPhases sampleRun TrafficLight.new 3).toggleTimes = [4000, 10001]
      ∧ (cycleThroughPhases sampleRun TrafficLight.new 3).cycleLog = [4000, 6000]
      ∧ ((4000 : Int) ≤ 6000 ∧ (6000 : Int) ≤ 6000)
      ∧ (6000 : Int) ≤ 10001 - 4000
      ∧ (10001 : Int) - 4000 < 6000 + 2 * 5999 :=
  ⟨sampleRun_clock_mono, by decide, by decide,
    ((toggle_interval_bounds sampleRun sampleRun_clock_mono TrafficLight.new 3).2.1
      0 4000 10001 6000 (by decide) (by decide) (by decide)).1,
    ((toggle_interval_bounds sampleRun sampleRun_clock_mono TrafficLight.new 3).2.1
      0 4000 10001 6000 (by decide) (by decide) (by decide)).2.1,
    ((toggle_interval_bounds sampleRun sampleRun_clock_mono TrafficLight.new 3).2.1
      0 4000 10001 6000 (by decide) (by decide) (by decide)).2.2
      5999 sampleRun_clock_step (by decide)⟩

/-- C8: the current phase is the last publication. In every state of a run of
the background cycle of a fresh traffic light, each send taken to complete at
the toggle that issues it: an iteration that finds the
cycle length reached pushes exactly one item, the new current phase, which is
the toggle of the old one; an iteration that finds the elapsed time below the
cycle length changes neither the phase nor the queue; and whenever something
has been pushed, `getCurrentPhase` is the last item pushed. -/
theorem current_phase_is_last_published (env : Oracles) (k : Nat) :
    ((freshRun env k).cycleDuration ≤ (freshRun env k).elapsed env →
        (freshRun env (k + 1)).light._queue.q_queue
            = (freshRun env k).light._queue.q_queue
                ++ [(freshRun env (k + 1)).light.getCurrentPhase]
          ∧ (freshRun env (k + 1)).light.getCurrentPhase
            = togglePhase (freshRun env k).light.getCurrentPhase)
      ∧ ((freshRun env k).elapsed env < (freshRun env k).cycleDuration →
          (freshRun env (k + 1)).light = (freshRun env k).light)
      ∧ ((freshRun env k).light._queue.q_queue ≠ [] →
          (freshRun env k).light._queue.q_queue.getLast?
            = some (freshRun env k).light.getCurrentPhase) := by
  obtain ⟨hp, hq⟩ := freshRun_queue env k
  obtain ⟨_, hq1⟩ := freshRun_queue env (k + 1)
  obtain ⟨e1, _, _, _, _, e6, _, _, _⟩ := freshRun_succ_sameLoop env k
  unfold TrafficLight.getCurrentPhase
  refine ⟨?_, ?_, ?_⟩
  · intro h
    have h1 : (freshRun env k).cycleDuration
        ≤ (freshRun env k).elapsed env.sendsCompleteAtToggle := h
    obtain ⟨t1, _, t3, _⟩ := cycleIteration_toggles _ _ h1
    rw [hq1, e6, t3, e1, t1, hq]
    exact ⟨rfl, rfl⟩
  · intro h
    have h1 : (freshRun env k).elapsed env.sendsCompleteAtToggle
        < (freshRun env k).cycleDuration := h
    obtain ⟨i1, i2, _⟩ := cycleIteration_idles _ _ h1
    have hph : (freshRun env (k + 1)).light._currentPhase
        = (freshRun env k).light._currentPhase := by rw [e1, i1]
    have hqq : (freshRun env (k + 1)).light._queue.q_queue
        = (freshRun env k).light._queue.q_queue := by rw [hq1, e6, i2, hq]
    cases hl1 : (freshRun env (k + 1)).light with
    | mk p1 q1 =>
      cases hl0 : (freshRun env k).light with
      | mk p0 q0 =>
        rw [hl1, hl0] at hph hqq
        cases q1; cases q0
        simp only at hph hqq
        subst hph hqq
        rfl
  · intro hne
    obtain ⟨hf, hph⟩ := cycle_published env.sendsCompleteAtToggle k
    have hf1 : (freshRun env k).futures = alternating (freshRun env k).toggleTimes.length := hf
    have hph1 : (freshRun env k).light._currentPhase
        = if (freshRun env k).toggleTimes.length % 2 = 1
          then TrafficLightPhase.green else TrafficLightPhase.red := hph
    have hn : (freshRun env k).toggleTimes.length ≠ 0 := by
      intro h0
      rw [hq, hf1, h0] at hne
      exact hne (by simp [alternating])
    rw [hph1, hq, hf1, (alternating_chain _).2, if_neg hn]

/-- Witness for C8: in the sample run the first iteration toggles to green,
the second one idles, and green is then the last item pushed. -/
theorem current_phase_is_last_published_witness :
    ((freshRun sampleRun 1).light._queue.q_queue
          = (freshRun sampleRun 0).light._queue.q_queue
              ++ [(freshRun sampleRun 1).light.getCurrentPhase]
        ∧ (freshRun sampleRun 1).light.getCurrentPhase
          = togglePhase (freshRun sampleRun 0).light.getCurrentPhase)
      ∧ (freshRun sampleRun 2).light = (freshRun sampleRun 1).light
      ∧ (freshRun sampleRun 2).light._queue.q_queue.getLast?
          = some (freshRun sampleRun 2).light.getCurrentPhase :=
  ⟨(current_phase_is_last_published sampleRun 0).1 (by decide),
    (current_phase_is_last_published sampleRun 1).2.1 (by decide),
    (current_phase_is_last_published sampleRun 2).2.2 (by decide)⟩

/-- C9: construction. A freshly constructed traffic light reports red and owns
an empty queue. -/
theorem construction_red_and_empty :
    TrafficLight.new.getCurrentPhase = TrafficLightPhase.red
      ∧ TrafficLight.new._queue.q_queue = []
      ∧ TrafficLight.new._queue.receive = none := by
  exact ⟨rfl, rfl, rfl⟩

/-- C10 fails on the code: `sleep_for` sits inside the branch that toggles. With
a clock advancing 1 ms per reading and a cycle length of 4000 ms, the first
three iterations find 1, 2 and 3 ms elapsed and none of them sleeps; in the
sample run only the two toggling iterations sleep. -/
theorem idle_iterations_do_not_sleep :
    (freshRun tickingRun 3).sleepLog = [0, 0, 0]
      ∧ (freshRun tickingRun 3).clockReads = 4
      ∧ (freshRun sampleRun 3).sleepLog = [1, 0, 1] := by
  decide

end TrafficSim
